import Mathlib

/-!
Formal model of the Bayesian-optimization notebook
`BOPlayground/StanleyStartup/SimpleGPyTorchScript.ipynb`.

Real-valued tensor data is modelled over `ℚ` (exact arithmetic); a torch
tensor column is a `List ℚ`.  Per-column reductions (`mean(0)`, `std(0)`,
`max(dim=0)`, `min(dim=0)`) act on each column independently, so the
per-column model is exact.  The square root computed by `torch.std` is
irrational for general rational data; where the stored standard deviation
matters it is characterized exactly (`0 ≤ std ∧ std ^ 2 = variance`)
instead of being computed.
-/

namespace BOModel

/-- The constant `1e-10` added to the standard deviation in
`TorchStandardScaler.transform` / `fit_transform` / `reverse`. -/
def eps : ℚ := 1 / 10 ^ 10

/-- Per-column mean over the rows: `x.mean(0)`. -/
def colMean (x : List ℚ) : ℚ := x.sum / x.length

/-- Population (`unbiased=False`, i.e. not Bessel-corrected) variance over
the rows: the square of `x.std(0, unbiased=False)`. -/
def colVarPop (x : List ℚ) : ℚ := ((x.map (fun v => (v - colMean x) ^ 2)).sum) / x.length

/-- The statistics stored by a fitted `TorchStandardScaler`:
`self.mean` and `self.std`. -/
structure ScalerState where
  mean : ℚ
  std : ℚ
deriving DecidableEq

/-- `TorchStandardScaler.fit x` stores `self.mean = x.mean(0, keepdim=True)` and
`self.std = x.std(0, unbiased=False, keepdim=True)`.  The stored `std` is the
nonnegative square root of the population variance, irrational for general
rational data, so the fitted state is characterized exactly. -/
def IsFitOf (st : ScalerState) (x : List ℚ) : Prop :=
  st.mean = colMean x ∧ 0 ≤ st.std ∧ st.std ^ 2 = colVarPop x

instance (st : ScalerState) (x : List ℚ) : Decidable (IsFitOf st x) :=
  inferInstanceAs (Decidable (_ ∧ _ ∧ _))

/-- `TorchStandardScaler.transform`: `x = x.clone(); x -= self.mean;
x /= (self.std + 1e-10); return x`, elementwise per column. -/
def transform (st : ScalerState) (x : List ℚ) : List ℚ :=
  x.map (fun v => (v - st.mean) / (st.std + eps))

/-- `TorchStandardScaler.reverse`: `x = x.clone(); x *= (self.std + 1e-10);
x += self.mean; return x`, elementwise per column. -/
def reverse (st : ScalerState) (x : List ℚ) : List ℚ :=
  x.map (fun v => v * (st.std + eps) + st.mean)

/-- `torch.max(x, dim=0).values` on one column (0 on the empty column, on
which torch raises instead; all statements below assume a nonempty column). -/
def listMax (l : List ℚ) : ℚ := l.maximum.unbot' 0

/-- `torch.min(x, dim=0).values` on one column. -/
def listMin (l : List ℚ) : ℚ := l.minimum.untop' 0

/-- The statistics stored by a fitted `TorchNormalizer`: `self.max`, `self.min`. -/
structure NormState where
  max : ℚ
  min : ℚ
deriving DecidableEq

/-- `TorchNormalizer.fit`: `self.max = torch.max(x, dim=0).values;
self.min = torch.min(x, dim=0).values`. -/
def normFit (x : List ℚ) : NormState := ⟨listMax x, listMin x⟩

/-- `TorchNormalizer.transform`: `(x.clone() - self.min) / (self.max - self.min)`.
Note: no `1e-10` guard is added to the denominator, unlike `TorchStandardScaler`. -/
def normTransform (st : NormState) (x : List ℚ) : List ℚ :=
  x.map (fun v => (v - st.min) / (st.max - st.min))

/-- `TorchNormalizer.fit_transform`: fit then transform in one call. -/
def normFitTransform (x : List ℚ) : List ℚ := normTransform (normFit x) x

/-- `UCB(pred, epsilon=2)`: `pred.mean + epsilon * pred.stddev`, elementwise.
The default exploration coefficient in the source is `epsilon = 2`. -/
def UCB (mean stddev : List ℚ) (epsilon : ℚ) : List ℚ :=
  List.zipWith (fun m s => m + epsilon * s) mean stddev

/-- `torch.argmax` on a vector: the index of the first occurrence of the
maximum value (0 on the empty vector). -/
def argmaxIdx (l : List ℚ) : Nat :=
  l.findIdx (fun v : ℚ => decide ((v : WithBot ℚ) = l.maximum))

/-- `acqf_vals[idx] = -100`: overwrite the acquisition score at every
already-evaluated index with the sentinel `-100`. -/
def mask (scores : List ℚ) (idx : List Nat) : List ℚ :=
  scores.mapIdx (fun i v => if i ∈ idx then -100 else v)

/-- One iteration's index bookkeeping:
`acqf_vals[idx] = -100; idx = torch.cat([idx, acqf_vals.argmax().unsqueeze(0)])`. -/
def step (idx : List Nat) (scores : List ℚ) : List Nat :=
  idx ++ [argmaxIdx (mask scores idx)]

/-- The index bookkeeping of the optimization loop `for trial in trange(op_budget)`,
run for `budget` iterations from the initial index list `idx0`
(`idx = torch.randperm(N)[:n_initial]`).  The acquisition scores of iteration `t`
(the UCB values of the posterior of the GP freshly fitted at iteration `t`,
a vector of length `N` over the whole candidate pool) are supplied by `oracle t`. -/
def runLoop (oracle : Nat → List ℚ) (idx0 : List Nat) : Nat → List Nat
  | 0 => idx0
  | b + 1 => step (runLoop oracle idx0 b) (oracle b)

/-! ### Store model of tensor mutation

To state the frame properties (the scaler methods never mutate the
caller-owned tensor), torch tensors are modelled as references into a store:
`x.clone()` allocates a fresh cell holding a copy, the in-place operators
`-=`, `/=`, `*=`, `+=` overwrite the cell of their left operand, and
out-of-place operators allocate fresh cells. -/

/-- One torch tensor column. -/
abbrev Tensor := List ℚ

/-- The store of allocated tensors; a reference is an index into it. -/
abbrev Store := List Tensor

abbrev Ref := Nat

/-- Read the tensor a reference designates. -/
def readS (s : Store) (r : Ref) : Tensor := s.getD r []

/-- Overwrite the tensor a reference designates (an in-place torch operation). -/
def writeS (s : Store) (r : Ref) (v : Tensor) : Store := s.set r v

/-- Allocate a fresh tensor (`x.clone()` or the result of an out-of-place
operation), returning the new store and the fresh reference. -/
def alloc (s : Store) (v : Tensor) : Store × Ref := (s ++ [v], s.length)

/-- `TorchStandardScaler.fit` on the store: `x = x.clone()` allocates a copy,
the statistics are computed from the copy and stored on the scaler.
`sqrtQ` stands for the nonnegative square root taken by `torch.std`
(irrational for general rational data, hence a parameter). -/
def fitHeap (sqrtQ : ℚ → ℚ) (s : Store) (r : Ref) : ScalerState × Store :=
  let p := alloc s (readS s r)
  (⟨colMean (readS p.1 p.2), sqrtQ (colVarPop (readS p.1 p.2))⟩, p.1)

/-- `TorchStandardScaler.transform` on the store: `x = x.clone()` allocates,
`x -= self.mean` and `x /= (self.std + 1e-10)` write in place to the fresh
cell, whose reference is returned. -/
def transformHeap (st : ScalerState) (s : Store) (r : Ref) : Store × Ref :=
  let p := alloc s (readS s r)
  let s1 := writeS p.1 p.2 ((readS p.1 p.2).map (fun v => v - st.mean))
  let s2 := writeS s1 p.2 ((readS s1 p.2).map (fun v => v / (st.std + eps)))
  (s2, p.2)

/-- `TorchStandardScaler.fit_transform` on the store: clone, compute and store
the statistics from the clone, then transform the clone in place. -/
def fit_transformHeap (sqrtQ : ℚ → ℚ) (s : Store) (r : Ref) :
    ScalerState × Store × Ref :=
  let p := alloc s (readS s r)
  let st : ScalerState := ⟨colMean (readS p.1 p.2), sqrtQ (colVarPop (readS p.1 p.2))⟩
  let s1 := writeS p.1 p.2 ((readS p.1 p.2).map (fun v => v - st.mean))
  let s2 := writeS s1 p.2 ((readS s1 p.2).map (fun v => v / (st.std + eps)))
  (st, s2, p.2)

/-- `TorchStandardScaler.reverse` on the store: clone, then `x *= (self.std + 1e-10)`
and `x += self.mean` in place on the clone. -/
def reverseHeap (st : ScalerState) (s : Store) (r : Ref) : Store × Ref :=
  let p := alloc s (readS s r)
  let s1 := writeS p.1 p.2 ((readS p.1 p.2).map (fun v => v * (st.std + eps)))
  let s2 := writeS s1 p.2 ((readS s1 p.2).map (fun v => v + st.mean))
  (s2, p.2)

/-- `TorchNormalizer.fit` on the store: `torch.max` / `torch.min` only read. -/
def normFitHeap (s : Store) (r : Ref) : NormState × Store :=
  (⟨listMax (readS s r), listMin (readS s r)⟩, s)

/-- `TorchNormalizer.transform` on the store:
`(x.clone() - self.min) / (self.max - self.min)`; the clone and the two
out-of-place operations each allocate a fresh tensor. -/
def normTransformHeap (st : NormState) (s : Store) (r : Ref) : Store × Ref :=
  let p := alloc s (readS s r)
  let q := alloc p.1 ((readS p.1 p.2).map (fun v => v - st.min))
  let w := alloc q.1 ((readS q.1 q.2).map (fun v => v / (st.max - st.min)))
  (w.1, w.2)

/-! ### Gaussian-process posterior prediction

Modelled from the spec: the exact-GP conditioning machinery invoked by
`pred = gp(TorchStd.transform(X_))` lives in the external GPyTorch library,
not in this repository's source; §4.2 of the design specifies `predict` as
the closed-form Gaussian-process conditioning formula evaluated from the
fitted state, read-only and side-effect-free.  The fitted state after
`fit_gpytorch_mll` holds the training set and the fitted hyperparameters;
the fitted covariance function (output-scale times Matérn-5/2 with ARD
length-scales) takes transcendental values, so it is carried as the field
`kern`, and the Gaussian observation noise as `noiseVar`. -/

structure GPFit where
  xTrain : List Tensor
  yTrain : List ℚ
  meanConst : ℚ
  kern : Tensor → Tensor → ℚ
  noiseVar : ℚ

/-- The regularized training covariance `K + σ² I`. -/
def trainMatrix (m : GPFit) : Matrix (Fin m.xTrain.length) (Fin m.xTrain.length) ℚ :=
  fun i j => m.kern (m.xTrain.get i) (m.xTrain.get j) + if i = j then m.noiseVar else 0

/-- Matrix inverse over `ℚ` via the adjugate (the zero matrix when singular;
the spec treats a non-invertible training covariance as a fatal condition). -/
def matInv {n : Nat} (A : Matrix (Fin n) (Fin n) ℚ) : Matrix (Fin n) (Fin n) ℚ :=
  (A.det)⁻¹ • A.adjugate

/-- `(K + σ² I)⁻¹ (y - μ 1)`. -/
def residual (m : GPFit) : Fin m.xTrain.length → ℚ :=
  (matInv (trainMatrix m)).mulVec (fun i => m.yTrain.getD i 0 - m.meanConst)

/-- The cross-covariance vector between a query point and the training set. -/
def crossVec (m : GPFit) (q : Tensor) : Fin m.xTrain.length → ℚ :=
  fun i => m.kern q (m.xTrain.get i)

/-- Posterior mean at a query point: `μ + k*ᵀ (K + σ² I)⁻¹ (y - μ 1)`. -/
def postMean (m : GPFit) (q : Tensor) : ℚ :=
  m.meanConst + ∑ i, crossVec m q i * residual m i

/-- Posterior variance at a query point: `k(q,q) - k*ᵀ (K + σ² I)⁻¹ k*`,
clamped below at the small positive floor `1e-10` per the spec. -/
def postVar (m : GPFit) (q : Tensor) : ℚ :=
  max eps
    (m.kern q q - ∑ i, ∑ j, crossVec m q i * matInv (trainMatrix m) i j * crossVec m q j)

/-- `with torch.no_grad(): pred = gp(queries)`: evaluate the posterior at each
query point and return the (mean, variance) vectors together with the model
state after the call (the call assigns nothing to the fitted state).
`stddev` is the square root of the variance, a function of it, so identity of
(mean, variance) pairs gives identity of (mean, stddev) pairs. -/
def predictStep (m : GPFit) (qs : List Tensor) : (List ℚ × List ℚ) × GPFit :=
  ((qs.map (postMean m), qs.map (postVar m)), m)

/-! ### Helper lemmas -/

theorem eps_pos : (0 : ℚ) < eps := by norm_num [eps]

theorem sum_map_sub_const (x : List ℚ) (c : ℚ) :
    (x.map (fun v => v - c)).sum = x.sum - x.length * c := by
  induction x with
  | nil => simp
  | cons a t ih =>
    simp only [List.map_cons, List.sum_cons, List.length_cons, ih]
    push_cast
    ring

theorem sum_map_mul_const (x : List ℚ) (f : ℚ → ℚ) (c : ℚ) :
    (x.map (fun v => f v * c)).sum = (x.map f).sum * c := by
  induction x with
  | nil => simp
  | cons a t ih =>
    simp only [List.map_cons, List.sum_cons, ih]
    ring

theorem length_transform (st : ScalerState) (x : List ℚ) :
    (transform st x).length = x.length := by
  simp [transform]

theorem colMean_transform (st : ScalerState) (x : List ℚ) (hx : x ≠ [])
    (hm : st.mean = colMean x) : colMean (transform st x) = 0 := by
  have hn : (x.length : ℚ) ≠ 0 := by
    exact_mod_cast (List.length_pos.mpr hx).ne'
  unfold colMean transform
  simp only [div_eq_mul_inv, List.length_map]
  rw [sum_map_mul_const x (fun v => v - st.mean) (st.std + eps)⁻¹,
    sum_map_sub_const, hm]
  unfold colMean
  rw [div_eq_mul_inv]
  field_simp

theorem colVarPop_transform (st : ScalerState) (x : List ℚ) (hx : x ≠ [])
    (hm : st.mean = colMean x) :
    colVarPop (transform st x) = colVarPop x / (st.std + eps) ^ 2 := by
  have h0 := colMean_transform st x hx hm
  unfold colVarPop
  rw [h0, length_transform]
  unfold transform
  rw [List.map_map]
  have hfun : ((fun v : ℚ => (v - 0) ^ 2) ∘ fun v => (v - st.mean) / (st.std + eps)) =
      fun v => ((v - st.mean) ^ 2) * ((st.std + eps) ^ 2)⁻¹ := by
    funext v
    simp only [Function.comp, sub_zero, div_eq_mul_inv, mul_pow, inv_pow]
  rw [hfun, sum_map_mul_const x (fun v => (v - st.mean) ^ 2) ((st.std + eps) ^ 2)⁻¹, hm]
  rw [div_eq_mul_inv, div_eq_mul_inv]
  ring

theorem reverse_transform_eq (st : ScalerState) (hstd : 0 ≤ st.std) (y : List ℚ) :
    reverse st (transform st y) = y := by
  have hd : st.std + eps ≠ 0 := by
    have := eps_pos
    positivity
  unfold reverse transform
  rw [List.map_map]
  have hfun : ∀ v ∈ y,
      ((fun v : ℚ => v * (st.std + eps) + st.mean) ∘
        fun v => (v - st.mean) / (st.std + eps)) v = id v := by
    intro v _
    simp only [Function.comp, id]
    field_simp
  rw [List.map_congr_left hfun, List.map_id]

theorem var_ratio_close_to_one (s : ℚ) (h : 1 / 1000 ≤ s) :
    |s ^ 2 / (s + eps) ^ 2 - 1| ≤ 1 / 1000000 := by
  have heps : (0 : ℚ) < eps := eps_pos
  have hs : (0 : ℚ) < s := lt_of_lt_of_le (by norm_num) h
  have hd : (0 : ℚ) < s + eps := by linarith
  have hd2 : (0 : ℚ) < (s + eps) ^ 2 := by positivity
  have hle : s ^ 2 / (s + eps) ^ 2 ≤ 1 := by
    rw [div_le_one hd2]
    nlinarith
  rw [abs_sub_comm, abs_of_nonneg (by linarith)]
  have he : eps = 1 / 10 ^ 10 := rfl
  have key : (s + eps) ^ 2 - s ^ 2 ≤ (1 / 1000000) * (s + eps) ^ 2 := by
    rw [he]
    nlinarith [mul_self_nonneg (s - 1 / 1000), hs.le, h]
  have hcalc : 1 - s ^ 2 / (s + eps) ^ 2 = ((s + eps) ^ 2 - s ^ 2) / (s + eps) ^ 2 := by
    field_simp
  rw [hcalc, div_le_iff₀ hd2]
  linarith

theorem listMax_spec (l : List ℚ) (h : l ≠ []) :
    listMax l ∈ l ∧ ∀ a ∈ l, a ≤ listMax l := by
  cases hq : l.maximum with
  | bot => exact absurd (List.maximum_eq_bot.mp hq) h
  | coe m =>
    have hc := List.maximum_eq_coe_iff.mp hq
    have : listMax l = m := by simp [listMax, hq]
    rw [this]
    exact hc

theorem listMin_spec (l : List ℚ) (h : l ≠ []) :
    listMin l ∈ l ∧ ∀ a ∈ l, listMin l ≤ a := by
  cases hq : l.minimum with
  | top => exact absurd (List.minimum_eq_top.mp hq) h
  | coe m =>
    have hc := List.minimum_eq_coe_iff.mp hq
    have : listMin l = m := by simp [listMin, hq]
    rw [this]
    exact hc

/-! ### Claim theorems -/

/-- C5 (counterexample): the claim "transform applied to the data the Scaler
was fitted on yields zero mean and unit variance per column (within
floating-point tolerance)" fails on a constant column.  Fitting
`TorchStandardScaler` on the column `[1, 1]` stores mean 1 and std 0 (a
genuinely fitted state); `transform` then maps the column to `[0, 0]`, whose
variance is 0 — off from unit variance by 1, far outside any floating-point
tolerance. -/
theorem c5_counterexample :
    IsFitOf ⟨1, 0⟩ [1, 1] ∧ transform ⟨1, 0⟩ [1, 1] = [0, 0] ∧
      colVarPop (transform ⟨1, 0⟩ [1, 1]) = 0 := by
  refine ⟨⟨?_, le_refl 0, ?_⟩, ?_, ?_⟩
  · norm_num [colMean]
  · norm_num [colVarPop, colMean]
  · norm_num [transform, eps]
  · norm_num [transform, eps, colVarPop, colMean]

/-- C5 (amended): for every fitted standard Scaler, `reverse (transform x) = x`
holds exactly (in exact arithmetic), and `transform` applied to the fitting
data has exactly zero mean per column; its variance is
`std² / (std + 1e-10)²`, which is within `1e-6` of unit variance provided the
column's standard deviation is at least `1e-3` (for constant or near-constant
columns unit variance fails, see the counterexample). -/
theorem c5_amended (st : ScalerState) (x : List ℚ) (hx : x ≠ [])
    (hfit : IsFitOf st x) :
    (∀ y, reverse st (transform st y) = y) ∧
      colMean (transform st x) = 0 ∧
      colVarPop (transform st x) = st.std ^ 2 / (st.std + eps) ^ 2 ∧
      (1 / 1000 ≤ st.std → |colVarPop (transform st x) - 1| ≤ 1 / 1000000) := by
  obtain ⟨hm, hs0, hv⟩ := hfit
  have hvar : colVarPop (transform st x) = st.std ^ 2 / (st.std + eps) ^ 2 := by
    rw [colVarPop_transform st x hx hm, ← hv]
  refine ⟨reverse_transform_eq st hs0, colMean_transform st x hx hm, hvar, ?_⟩
  intro h
  rw [hvar]
  exact var_ratio_close_to_one st.std h

/-- C5 (witness): the amended theorem applied to the scaler fitted on the
column `[0, 2]` (mean 1, population std 1). -/
theorem c5_witness :
    IsFitOf ⟨1, 1⟩ [0, 2] ∧ reverse ⟨1, 1⟩ (transform ⟨1, 1⟩ [5, 7]) = [5, 7] ∧
      colMean (transform ⟨1, 1⟩ [0, 2]) = 0 ∧
      |colVarPop (transform ⟨1, 1⟩ [0, 2]) - 1| ≤ 1 / 1000000 := by
  have hfit : IsFitOf ⟨1, 1⟩ [0, 2] := by
    refine ⟨?_, by norm_num, ?_⟩ <;> norm_num [colMean, colVarPop]
  have h := c5_amended ⟨1, 1⟩ [0, 2] (by simp) hfit
  exact ⟨hfit, h.1 [5, 7], h.2.1, h.2.2.2 (by norm_num)⟩

/-- C6: a fitted standard Scaler stores the per-column mean and the population
(`unbiased=False`, not Bessel-corrected) standard deviation; `transform`
returns exactly `(data - mean) / (std + ε)` elementwise with `ε = 1e-10`, and
the divisor `std + ε` is strictly positive — no division by zero — even for
constant columns (where `std = 0`). -/
theorem c6_fit_and_transform (st : ScalerState) (x : List ℚ) ( _hx : x ≠ [])
    (hfit : IsFitOf st x) :
    st.mean = colMean x ∧ 0 ≤ st.std ∧ st.std ^ 2 = colVarPop x ∧
      eps = 1 / 10 ^ 10 ∧ 0 < st.std + eps ∧
      ∀ d, transform st d = d.map (fun v => (v - st.mean) / (st.std + eps)) := by
  obtain ⟨hm, hs, hv⟩ := hfit
  have : 0 < st.std + eps := by have := eps_pos; linarith
  exact ⟨hm, hs, hv, rfl, this, fun d => rfl⟩

/-- C6 (witness): the theorem applied to the scaler fitted on the constant
column `[5, 5]` (mean 5, std 0): the divisor is still strictly positive. -/
theorem c6_witness :
    IsFitOf ⟨5, 0⟩ [5, 5] ∧ 0 < (ScalerState.mk 5 0).std + eps := by
  have hfit : IsFitOf ⟨5, 0⟩ [5, 5] := by
    refine ⟨?_, le_refl 0, ?_⟩ <;> norm_num [colMean, colVarPop]
  exact ⟨hfit, (c6_fit_and_transform ⟨5, 0⟩ [5, 5] (by simp) hfit).2.2.2.2.1⟩

/-- C8 (counterexample): the min-max normalizer is NOT guarded against
division by zero.  Fitting `TorchNormalizer` on the constant column `[3, 3]`
stores `max = min = 3`, so the divisor `max - min` of `transform` is 0; there
is no `ε` term in the source (`(x.clone() - self.min) / (self.max - self.min)`).
In the exact `ℚ` model division by zero evaluates to 0, so the transformed
column is `[0, 0]`; in torch's floating point it is `0/0 = NaN`.  Either way
the standard Scaler's contract ("well-defined for constant columns") fails. -/
theorem c8_counterexample :
    (normFit [3, 3]).max - (normFit [3, 3]).min = 0 ∧
      normTransform (normFit [3, 3]) [3, 3] = [0, 0] := by
  have h : normFit [3, 3] = ⟨3, 3⟩ := rfl
  rw [h]
  norm_num [normTransform]

/-- C8 (amended): `TorchNormalizer.transform` returns exactly
`(x - min) / (max - min)` per column, with `min ≤ max` for a fitted state; but
unlike the standard Scaler there is no division-by-zero guard: the divisor
`max - min` vanishes exactly when the fitted column is constant. -/
theorem c8_amended (x : List ℚ) (hx : x ≠ []) :
    (∀ y, normTransform (normFit x) y =
        y.map (fun v => (v - (normFit x).min) / ((normFit x).max - (normFit x).min))) ∧
      (normFit x).min ≤ (normFit x).max ∧
      ((normFit x).max - (normFit x).min = 0 ↔ ∀ v ∈ x, ∀ w ∈ x, v = w) := by
  obtain ⟨hmaxMem, hmaxUb⟩ := listMax_spec x hx
  obtain ⟨hminMem, hminLb⟩ := listMin_spec x hx
  refine ⟨fun y => rfl, hminLb _ hmaxMem, ?_, ?_⟩
  · intro h0 v hv w hw
    have h1 : listMax x = listMin x := by
      have : (normFit x).max = (normFit x).min := by linarith [sub_eq_zero.mp h0]
      simpa [normFit] using this
    have hv1 : v ≤ listMax x := hmaxUb v hv
    have hv2 : listMin x ≤ v := hminLb v hv
    have hw1 : w ≤ listMax x := hmaxUb w hw
    have hw2 : listMin x ≤ w := hminLb w hw
    rw [h1] at hv1 hw1
    linarith
  · intro hconst
    have h1 : listMax x = listMin x := by
      have ha := hconst _ hmaxMem _ hminMem
      simpa using ha
    simp [normFit, h1]

/-- C8 (witness): the amended theorem applied to the column `[1, 2]`:
the fitted state is `max = 2, min = 1` and the divisor is nonzero exactly
because the column is not constant. -/
theorem c8_witness :
    normFit [1, 2] = ⟨2, 1⟩ ∧ (normFit [1, 2]).min ≤ (normFit [1, 2]).max ∧
      ¬ ((normFit [1, 2]).max - (normFit [1, 2]).min = 0) := by
  have h := c8_amended [1, 2] (by simp)
  refine ⟨rfl, h.2.1, ?_⟩
  intro h0
  have := h.2.2.mp h0 1 (by norm_num) 2 (by norm_num)
  norm_num at this

theorem zipWith_zero_coeff (m s : List ℚ) (h : m.length = s.length) :
    List.zipWith (fun a b => a + (0 : ℚ) * b) m s = m := by
  induction m generalizing s with
  | nil => simp
  | cons a t ih =>
    cases s with
    | nil => simp at h
    | cons b u =>
      rw [List.zipWith_cons_cons, ih u (by simpa using h)]
      simp

/-- C7: `UCB(pred, epsilon)` returns exactly `mean + epsilon * stddev`
elementwise (same length as the posterior mean; in the embedding it is a pure
function of its arguments, with no state and no side effects), and with
`epsilon = 0` it returns exactly the posterior mean. -/
theorem c7_ucb (mean stddev : List ℚ) (e : ℚ) (h : mean.length = stddev.length) :
    (UCB mean stddev e).length = mean.length ∧
      (∀ i, i < mean.length →
        (UCB mean stddev e).getD i 0 = mean.getD i 0 + e * stddev.getD i 0) ∧
      UCB mean stddev 0 = mean := by
  have hlen : (UCB mean stddev e).length = mean.length := by
    simp [UCB, h]
  refine ⟨hlen, ?_, zipWith_zero_coeff mean stddev h⟩
  intro i hi
  have hi2 : i < stddev.length := h ▸ hi
  have hiz : i < (UCB mean stddev e).length := hlen ▸ hi
  rw [List.getD_eq_getElem _ _ hiz, List.getD_eq_getElem _ _ hi,
    List.getD_eq_getElem _ _ hi2]
  simp [UCB]

/-- C7 (witness): the theorem applied to the posterior mean `[1, 2]`,
stddev `[3, 4]` and the source's default `epsilon = 2`. -/
theorem c7_witness :
    (UCB [1, 2] [3, 4] 2).getD 0 0 = 1 + 2 * 3 ∧ UCB [1, 2] [3, 4] 0 = [1, 2] := by
  have h := c7_ucb [1, 2] [3, 4] 2 rfl
  exact ⟨h.2.1 0 (by norm_num), (c7_ucb [1, 2] [3, 4] 2 rfl).2.2⟩

theorem readS_alloc (s t : Store) (r : Ref) (h : r < s.length) :
    readS (s ++ t) r = readS s r := by
  unfold readS
  exact List.getD_append _ _ _ _ h

theorem lt_length_append (s t : Store) (r : Nat) (h : r < s.length) :
    r < (s ++ t).length := by
  rw [List.length_append]
  omega

theorem length_append_ne (s t : Store) (r : Nat) (h : r < s.length) :
    (s ++ t).length ≠ r := by
  rw [List.length_append]
  omega

theorem readS_writeS_ne (s : Store) (r r' : Ref) (v : Tensor) (h : r ≠ r') :
    readS (writeS s r' v) r = readS s r := by
  unfold readS writeS
  rw [List.getD_eq_getElem?_getD, List.getD_eq_getElem?_getD,
    List.getElem?_set_ne h.symm]

/-- C9: none of the scaler / normalizer operations mutates the caller-owned
tensor: after `fit`, `transform`, `fit_transform`, `reverse` (standard
scaler) and `fit`, `transform` (min-max normalizer), the store cell the
caller's reference designates is unchanged, and every returned tensor is a
freshly allocated cell (its reference differs from the caller's); `fit` only
computes the scaler's own stored statistics. -/
theorem c9_no_mutation (sq : ℚ → ℚ) (st : ScalerState) (nst : NormState)
    (s : Store) (r : Ref) (h : r < s.length) :
    readS (fitHeap sq s r).2 r = readS s r ∧
      (readS (transformHeap st s r).1 r = readS s r ∧ (transformHeap st s r).2 ≠ r) ∧
      (readS (fit_transformHeap sq s r).2.1 r = readS s r ∧
        (fit_transformHeap sq s r).2.2 ≠ r) ∧
      (readS (reverseHeap st s r).1 r = readS s r ∧ (reverseHeap st s r).2 ≠ r) ∧
      readS (normFitHeap s r).2 r = readS s r ∧
      (readS (normTransformHeap nst s r).1 r = readS s r ∧
        (normTransformHeap nst s r).2 ≠ r) := by
  have hra : r ≠ s.length := Nat.ne_of_lt h
  have halloc : readS (s ++ [readS s r]) r = readS s r := readS_alloc s _ r h
  refine ⟨?_, ⟨?_, ?_⟩, ⟨?_, ?_⟩, ⟨?_, ?_⟩, ?_, ⟨?_, ?_⟩⟩
  · simpa [fitHeap, alloc] using halloc
  · simp only [transformHeap, alloc]
    rw [readS_writeS_ne _ _ _ _ hra, readS_writeS_ne _ _ _ _ hra]
    exact halloc
  · simp only [transformHeap, alloc]
    exact hra.symm
  · simp only [fit_transformHeap, alloc]
    rw [readS_writeS_ne _ _ _ _ hra, readS_writeS_ne _ _ _ _ hra]
    exact halloc
  · simp only [fit_transformHeap, alloc]
    exact hra.symm
  · simp only [reverseHeap, alloc]
    rw [readS_writeS_ne _ _ _ _ hra, readS_writeS_ne _ _ _ _ hra]
    exact halloc
  · simp only [reverseHeap, alloc]
    exact hra.symm
  · simp [normFitHeap]
  · simp only [normTransformHeap, alloc, List.append_assoc]
    exact readS_alloc s _ r h
  · exact length_append_ne _ _ _ (lt_length_append _ _ _ h)

/-- C9 (witness): the theorem applied to a one-cell store holding the tensor
`[1]`: `transform` leaves the caller's cell intact and returns a fresh cell. -/
theorem c9_witness :
    (0 : Ref) < ([[1]] : Store).length ∧
      readS (transformHeap ⟨0, 1⟩ [[1]] 0).1 0 = readS [[1]] 0 ∧
      (transformHeap ⟨0, 1⟩ [[1]] 0).2 ≠ 0 := by
  have h := c9_no_mutation id ⟨0, 1⟩ ⟨0, 0⟩ [[1]] 0 (by simp)
  exact ⟨by simp, h.2.1.1, h.2.1.2⟩

/-- C10: calling `predict` twice with identical query points on an
already-fit Surrogate returns identical (mean, variance) posteriors — hence
identical (mean, stddev) pairs, stddev being the square root of the variance
— and the call leaves the fitted state exactly as it was (`gp(...)` under
`torch.no_grad()` assigns nothing to the model). -/
theorem c10_predict_idempotent (m : GPFit) (qs : List Tensor) :
    (predictStep m qs).2 = m ∧
      predictStep (predictStep m qs).2 qs = predictStep m qs := by
  exact ⟨rfl, rfl⟩

theorem length_mask (scores : List ℚ) (idx : List Nat) :
    (mask scores idx).length = scores.length := by
  simp [mask]

theorem mask_getD_mem (scores : List ℚ) (idx : List Nat) (i : Nat)
    (h : i < scores.length) (hm : i ∈ idx) :
    (mask scores idx).getD i 0 = -100 := by
  have h2 : i < (mask scores idx).length := by
    rw [length_mask]
    exact h
  rw [List.getD_eq_getElem _ _ h2]
  unfold mask
  rw [List.getElem_mapIdx]
  simp [hm]

theorem mask_getD_not_mem (scores : List ℚ) (idx : List Nat) (j : Nat)
    (h : j < scores.length) (hm : j ∉ idx) :
    (mask scores idx).getD j 0 = scores.getD j 0 := by
  have h2 : j < (mask scores idx).length := by
    rw [length_mask]
    exact h
  rw [List.getD_eq_getElem _ _ h2, List.getD_eq_getElem _ _ h]
  unfold mask
  rw [List.getElem_mapIdx]
  simp [hm]

theorem argmaxIdx_lt_length (l : List ℚ) (h : l ≠ []) : argmaxIdx l < l.length := by
  cases hq : l.maximum with
  | bot => exact absurd (List.maximum_eq_bot.mp hq) h
  | coe m =>
    unfold argmaxIdx
    apply List.findIdx_lt_length_of_exists
    refine ⟨m, List.maximum_mem hq, ?_⟩
    simp [hq]

theorem argmaxIdx_getD_max (l : List ℚ) (h : l ≠ []) :
    ((l.getD (argmaxIdx l) 0 : ℚ) : WithBot ℚ) = l.maximum := by
  have ha : argmaxIdx l < l.length := argmaxIdx_lt_length l h
  have hp := List.findIdx_getElem (w := ha)
  rw [List.getD_eq_getElem _ _ ha]
  exact of_decide_eq_true hp

theorem getD_le_argmaxIdx (l : List ℚ) (j : Nat) (hj : j < l.length) :
    l.getD j 0 ≤ l.getD (argmaxIdx l) 0 := by
  have hne : l ≠ [] := by
    intro e
    rw [e] at hj
    simp at hj
  have hmax := argmaxIdx_getD_max l hne
  have hmem : l.getD j 0 ∈ l := by
    rw [List.getD_eq_getElem _ _ hj]
    exact List.getElem_mem _
  have hle := List.le_maximum_of_mem' hmem
  rw [← hmax] at hle
  exact_mod_cast hle

theorem argmax_mask_spec (scores : List ℚ) (idx : List Nat) (j : Nat)
    (hj : j ∉ idx) (hjl : j < scores.length) (hs : -100 < scores.getD j 0) :
    argmaxIdx (mask scores idx) ∉ idx ∧ argmaxIdx (mask scores idx) < scores.length := by
  have hne : mask scores idx ≠ [] := by
    intro e
    have := length_mask scores idx
    rw [e] at this
    simp at this
    omega
  have hlt : argmaxIdx (mask scores idx) < scores.length := by
    rw [← length_mask scores idx]
    exact argmaxIdx_lt_length _ hne
  refine ⟨?_, hlt⟩
  intro hmem
  have hjm : j < (mask scores idx).length := by
    rw [length_mask]
    exact hjl
  have h1 := getD_le_argmaxIdx (mask scores idx) j hjm
  rw [mask_getD_not_mem scores idx j hjl hj,
    mask_getD_mem scores idx _ hlt hmem] at h1
  linarith

/-- C1 (counterexample): the sentinel `-100` is NOT lower than every
achievable legitimate UCB score, and masking does not always prevent
re-selection.  Take the evaluated-index set `[0]` over a two-candidate pool
and the acquisition scores `[0, -200]` (achievable: spec §4.2 puts no lower
bound on the posterior mean, e.g. mean `-200` with stddev `0` at candidate 1
gives UCB `-200`; §9 of the spec itself flags exactly this `-100`-vs-`-∞`
hazard).  After masking, the score at the already-evaluated index 0 is
`-100`, NOT strictly less than the score `-200` at the unmasked candidate 1,
and the subsequent argmax returns index 0 — an already-evaluated index. -/
theorem c1_counterexample :
    mask [0, -200] [0] = [-100, -200] ∧
      ¬ ((mask [0, -200] [0]).getD 0 0 < (mask [0, -200] [0]).getD 1 0) ∧
      argmaxIdx (mask [0, -200] [0]) = 0 ∧ (0 : Nat) ∈ [0] :=
  ⟨by decide, by decide, by decide, by decide⟩

/-- C1 (amended): immediately after masking, the score at an
already-evaluated index (the sentinel `-100`) is strictly less than the score
at an unmasked candidate, and the subsequent argmax never returns an
already-evaluated index, PROVIDED the legitimate UCB score of some unmasked
candidate exceeds `-100` (for the candidates being compared).  Without that
proviso the property fails (see the counterexample). -/
theorem c1_amended (scores : List ℚ) (idx : List Nat) (i j : Nat)
    (hi : i ∈ idx) (hil : i < scores.length) (hj : j ∉ idx) (hjl : j < scores.length)
    (hs : -100 < scores.getD j 0) :
    (mask scores idx).getD i 0 < (mask scores idx).getD j 0 ∧
      argmaxIdx (mask scores idx) ∉ idx := by
  constructor
  · rw [mask_getD_mem scores idx i hil hi, mask_getD_not_mem scores idx j hjl hj]
    exact hs
  · exact (argmax_mask_spec scores idx j hj hjl hs).1

/-- C1 (witness): the amended theorem at scores `[5, 7]`, evaluated set `[0]`:
the masked score `-100` at index 0 is below the score `7` at index 1, and the
argmax (index 1) is not already evaluated. -/
theorem c1_witness :
    (mask [5, 7] [0]).getD 0 0 < (mask [5, 7] [0]).getD 1 0 ∧
      argmaxIdx (mask [5, 7] [0]) ∉ [0] :=
  c1_amended [5, 7] [0] 0 1 (by decide) (by decide) (by decide) (by decide) (by decide)

theorem runLoop_length (oracle : Nat → List ℚ) (idx0 : List Nat) (b : Nat) :
    (runLoop oracle idx0 b).length = idx0.length + b := by
  induction b with
  | zero => rfl
  | succ n ih =>
    simp only [runLoop, step, List.length_append, ih, List.length_cons,
      List.length_nil]
    omega

theorem step_invariant (N : Nat) (scores : List ℚ) (idx : List Nat)
    (hlen : scores.length = N) (hnd : idx.Nodup) (hmem : ∀ i ∈ idx, i < N)
    (hesc : ∃ j, j < N ∧ j ∉ idx ∧ -100 < scores.getD j 0) :
    (step idx scores).Nodup ∧ ∀ i ∈ step idx scores, i < N := by
  obtain ⟨j, hjN, hj, hs⟩ := hesc
  obtain ⟨hnot, hlt⟩ := argmax_mask_spec scores idx j hj (hlen.symm ▸ hjN) hs
  constructor
  · rw [step, List.nodup_append]
    refine ⟨hnd, List.nodup_singleton _, ?_⟩
    intro b hb hb2
    simp only [List.mem_singleton] at hb2
    subst hb2
    exact hnot hb
  · intro i hi
    rw [step, List.mem_append] at hi
    rcases hi with hi | hi
    · exact hmem i hi
    · simp only [List.mem_singleton] at hi
      subst hi
      rw [← hlen]
      exact hlt

/-- C2 (counterexample): even under a valid configuration, the
Evaluated-Index Set need not stay duplicate-free.  Pool size `N = 3`,
initial set `[0]`, one iteration, acquisition scores `[5, -300, -300]`
(achievable per spec §4.2, which bounds no posterior mean from below): after
masking, index 0 holds the sentinel `-100`, which exceeds both unmasked
scores `-300`; the argmax re-selects index 0 and the set becomes `[0, 0]` —
the iteration adds no new element and creates a duplicate. -/
theorem c2_counterexample :
    runLoop (fun _ => [5, -300, -300]) [0] 1 = [0, 0] ∧
      ¬ (runLoop (fun _ => [5, -300, -300]) [0] 1).Nodup :=
  ⟨by decide, by decide⟩

/-- C2 (amended): the Evaluated-Index Set grows by exactly one new element
per iteration, stays duplicate-free and within `[0, N)`, PROVIDED at every
iteration some not-yet-evaluated index has acquisition score above the
sentinel `-100` (and the initial random subset is duplicate-free and within
range, as `torch.randperm(N)[:n_initial]` guarantees).  Without the proviso
the invariant fails (see the counterexample). -/
theorem c2_amended (N : Nat) (oracle : Nat → List ℚ) (idx0 : List Nat) (budget : Nat)
    (hnd : idx0.Nodup) (hmem : ∀ i ∈ idx0, i < N)
    (hlen : ∀ t, (oracle t).length = N)
    (hesc : ∀ t, t < budget →
      ∃ j, j < N ∧ j ∉ runLoop oracle idx0 t ∧ -100 < (oracle t).getD j 0) :
    (runLoop oracle idx0 budget).Nodup ∧
      (∀ i ∈ runLoop oracle idx0 budget, i < N) ∧
      (runLoop oracle idx0 budget).length = idx0.length + budget := by
  induction budget with
  | zero => exact ⟨hnd, hmem, runLoop_length _ _ 0⟩
  | succ b ih =>
    have ih' := ih (fun t ht => hesc t (Nat.lt_succ_of_lt ht))
    have hst := step_invariant N (oracle b) (runLoop oracle idx0 b) (hlen b)
      ih'.1 ih'.2.1 (hesc b (Nat.lt_succ_self b))
    exact ⟨hst.1, hst.2, runLoop_length _ _ _⟩

/-- C2 (witness): the amended theorem on a pool of size 2, initial set `[0]`,
one iteration with scores `[5, 7]`: both unmasked scores exceed `-100`, so
the run stays duplicate-free and reaches length 2. -/
theorem c2_witness :
    (runLoop (fun _ => [5, 7]) [0] 1).Nodup ∧
      (runLoop (fun _ => [5, 7]) [0] 1).length = 1 + 1 := by
  have hesc : ∀ t, t < 1 →
      ∃ j, j < 2 ∧ j ∉ runLoop (fun _ => [5, 7]) [0] t ∧
        -100 < ((fun _ : Nat => ([5, 7] : List ℚ)) t).getD j 0 := by
    intro t ht
    have h0 : t = 0 := by omega
    subst h0
    exact ⟨1, by omega, by decide, by decide⟩
  have h := c2_amended 2 (fun _ => [5, 7]) [0] 1 (by decide) (by decide)
    (fun t => rfl) hesc
  exact ⟨h.1, h.2.2⟩

theorem mask_all_evaluated (scores : List ℚ) (idx : List Nat)
    (h : ∀ i, i < scores.length → i ∈ idx) :
    mask scores idx = List.replicate scores.length (-100) := by
  apply List.ext_getElem
  · simp [length_mask]
  · intro i h1 h2
    have hi : i < scores.length := by
      rw [length_mask] at h1
      exact h1
    rw [List.getElem_replicate]
    have hv := mask_getD_mem scores idx i hi (h i hi)
    rw [List.getD_eq_getElem _ _ h1] at hv
    exact hv

theorem argmaxIdx_replicate (n : Nat) (c : ℚ) (h : 0 < n) :
    argmaxIdx (List.replicate n c) = 0 := by
  have hmax : (List.replicate n c).maximum = (c : WithBot ℚ) := by
    rw [List.maximum_eq_coe_iff]
    constructor
    · exact List.mem_replicate.mpr ⟨by omega, rfl⟩
    · intro a ha
      rw [List.mem_replicate] at ha
      exact le_of_eq ha.2
  cases n with
  | zero => omega
  | succ m =>
    unfold argmaxIdx
    rw [List.replicate_succ, List.findIdx_cons]
    have hp : (decide (((c : ℚ) : WithBot ℚ) = (c :: List.replicate m c).maximum)) = true := by
      rw [← List.replicate_succ, hmax]
      simp
    rw [hp]
    rfl

theorem not_nodup_step (idx : List Nat) (scores : List ℚ) (h : ¬ idx.Nodup) :
    ¬ (step idx scores).Nodup := by
  intro hnd
  exact h ((List.sublist_append_left _ _).nodup hnd)

/-- C3 (counterexample): no configuration validation exists in the source.
With pool size `N = 2` and `n_initial = 2` (violating `n_initial < N`, and
exhausting the pool: `op_budget + n_initial = 3 ≥ N`), the loop is entered
anyway and runs its iteration to completion, appending the duplicate index 0
instead of reporting an error to the caller. -/
theorem c3_counterexample :
    runLoop (fun _ => [1, 2]) [0, 1] 1 = [0, 1, 0] ∧
      ¬ (runLoop (fun _ => [1, 2]) [0, 1] 1).Nodup :=
  ⟨by decide, by decide⟩

/-- C3 (amended): the source performs no configuration check whatsoever: the
loop always runs all `op_budget` iterations and returns
`n_initial + op_budget` indices, and when the evaluated set already covers
the whole pool (pool exhaustion, e.g. `n_initial ≥ N`), every score is
masked to `-100`, the argmax degenerates to index 0, and duplicate indices
are appended — the run completes normally instead of surfacing a
configuration error. -/
theorem c3_amended (N : Nat) (oracle : Nat → List ℚ) (idx0 : List Nat) (budget : Nat)
    (hN : 0 < N) (hb : 0 < budget) (hcov : ∀ j, j < N → j ∈ idx0)
    (hlen : ∀ t, (oracle t).length = N) :
    (runLoop oracle idx0 budget).length = idx0.length + budget ∧
      ¬ (runLoop oracle idx0 budget).Nodup := by
  refine ⟨runLoop_length _ _ _, ?_⟩
  have h1 : ¬ (runLoop oracle idx0 1).Nodup := by
    have hmask : mask (oracle 0) idx0 = List.replicate (oracle 0).length (-100) :=
      mask_all_evaluated _ _ (fun i hi => hcov i (by rw [← hlen 0]; exact hi))
    show ¬ (step idx0 (oracle 0)).Nodup
    unfold step
    rw [hmask, hlen 0, argmaxIdx_replicate N (-100) hN]
    intro hnd
    rw [List.nodup_append] at hnd
    exact (hnd.2.2 (hcov 0 hN)) (by simp)
  obtain ⟨b, rfl⟩ : ∃ b, budget = b + 1 := ⟨budget - 1, by omega⟩
  induction b with
  | zero => exact h1
  | succ m ih => exact not_nodup_step _ _ (ih (by omega))

/-- C3 (witness): the amended theorem on a pool of size 1 whose single index
is already evaluated: one further iteration completes and duplicates it. -/
theorem c3_witness :
    (runLoop (fun _ => [3]) [0] 1).length = 1 + 1 ∧
      ¬ (runLoop (fun _ => [3]) [0] 1).Nodup :=
  c3_amended 1 (fun _ => [3]) [0] 1 Nat.one_pos Nat.one_pos
    (fun j hj => by
      have hj0 : j = 0 := by omega
      subst hj0
      simp) (fun t => rfl)

/-- C4: the loop runs exactly `op_budget` iterations — `trange(op_budget)`
has no early-stopping or convergence test, and the body appends exactly one
index per iteration — so for every run (any acquisition scores) with
positive `op_budget` and `n_initial`, the final Evaluated-Index Set holds
exactly `n_initial + op_budget` entries in selection order. -/
theorem c4_fixed_budget (oracle : Nat → List ℚ) (idx0 : List Nat)
    (n_initial op_budget : Nat) ( _h1 : 0 < n_initial) ( _h2 : 0 < op_budget)
    (hlen : idx0.length = n_initial) :
    (runLoop oracle idx0 op_budget).length = n_initial + op_budget := by
  rw [runLoop_length, hlen]

/-- C4 (witness): a run with `n_initial = 1`, `op_budget = 1` ends with
exactly 2 evaluated indices. -/
theorem c4_witness : (runLoop (fun _ => [1, 2]) [0] 1).length = 1 + 1 :=
  c4_fixed_budget (fun _ => [1, 2]) [0] 1 1 Nat.one_pos Nat.one_pos rfl

end BOModel
